import Mathlib

/-!
Verification of the prescription data analyzer's core aggregation logic
(`src/utils/useful_utilities.py`): `calculate_metrics`, `most_prescribed`
and `recommendations`, shallowly embedded over rational prices/quantities.
Python dicts (and `defaultdict`s) are insertion-ordered, so they are
modelled as association lists where updating an existing key keeps its
position and a new key is appended at the end.
-/

set_option maxHeartbeats 1000000

namespace PDA

open scoped List

/-- A pharmacy claim record as produced by ingestion (all required fields present). -/
structure Claim where
  id : String
  npi : String
  ndc : String
  price : ℚ
  quantity : ℚ
  timestamp : String
deriving DecidableEq

/-- A reversal record referencing a claim by id. -/
structure Revert where
  id : String
  claim_id : String
  timestamp : String
deriving DecidableEq

/-- `set(revert['claim_id'] for revert in reverts)` — only membership is ever used,
so the set is modelled by the list of claim ids with list membership. -/
def revertedClaims (reverts : List Revert) : List String :=
  reverts.map (·.claim_id)

/-- Python dict lookup on an insertion-ordered association list. -/
def lookupA {κ ν : Type} [DecidableEq κ] (k : κ) : List (κ × ν) → Option ν
  | [] => none
  | (k₁, v) :: rest => if k₁ = k then some v else lookupA k rest

/-- `defaultdict`-style mutation: apply `f` to the entry for `k`, creating it from
the default `d` first when absent; insertion order is preserved, new keys go last. -/
def updateA {κ ν : Type} [DecidableEq κ] (k : κ) (f : ν → ν) (d : ν) :
    List (κ × ν) → List (κ × ν)
  | [] => [(k, f d)]
  | (k₁, v) :: rest => if k₁ = k then (k₁, f v) :: rest else (k₁, v) :: updateA k f d rest

/-- The per-(npi, ndc) accumulator of `calculate_metrics`:
`{'fills': 0, 'reverted': 0, 'total_price': 0.0}`. -/
structure MAcc where
  fills : Nat
  reverted : Nat
  total_price : ℚ
deriving DecidableEq

/-- One output record of `calculate_metrics`. -/
structure MetricRecord where
  npi : String
  ndc : String
  fills : Nat
  reverted : Nat
  avg_price : ℚ
  total_price : ℚ
deriving DecidableEq

/-- The body of the claims loop in `calculate_metrics`: `fills += 1`,
`total_price += price`, and `reverted += 1` when the claim id is reverted. -/
def metricsStep (revIds : List String) (acc : List ((String × String) × MAcc)) (c : Claim) :
    List ((String × String) × MAcc) :=
  updateA (c.npi, c.ndc)
    (fun m =>
      { fills := m.fills + 1
        reverted := if c.id ∈ revIds then m.reverted + 1 else m.reverted
        total_price := m.total_price + c.price })
    ⟨0, 0, 0⟩ acc

/-- `calculate_metrics(claims, reverts)` from `src/utils/useful_utilities.py`. -/
def calculate_metrics (claims : List Claim) (reverts : List Revert) : List MetricRecord :=
  ((claims.foldl (metricsStep (revertedClaims reverts)) []).map
    (fun e =>
      { npi := e.1.1
        ndc := e.1.2
        fills := e.2.fills
        reverted := e.2.reverted
        avg_price := if e.2.fills ≠ 0 then e.2.total_price / (e.2.fills : ℚ) else 0
        total_price := e.2.total_price }))

/-- The body of the claims loop in `most_prescribed`: skip reverted claims,
append the quantity to the per-ndc list. -/
def mpStep (revIds : List String) (acc : List (String × List ℚ)) (c : Claim) :
    List (String × List ℚ) :=
  if c.id ∈ revIds then acc else updateA c.ndc (fun l => l ++ [c.quantity]) [] acc

/-- Keys of `collections.Counter` in insertion order: each distinct value once,
ordered by first occurrence. -/
def firstOccs : List ℚ → List ℚ
  | [] => []
  | q :: qs => q :: (firstOccs qs).filter (fun x => decide (x ≠ q))

/-- Number of occurrences of `q` in a list: the multiplicity `Counter` assigns. -/
def countQ (q : ℚ) : List ℚ → Nat
  | [] => 0
  | x :: xs => (if x = q then 1 else 0) + countQ q xs

/-- Position of the first occurrence of `q` in a list (its length when absent). -/
def firstIdx (q : ℚ) : List ℚ → Nat
  | [] => 0
  | x :: xs => if x = q then 0 else firstIdx q xs + 1

/-- `Counter(qs).items()`: (value, multiplicity) pairs in first-occurrence order. -/
def counterItems (qs : List ℚ) : List (ℚ × Nat) :=
  (firstOccs qs).map (fun q => (q, countQ q qs))

/-- `Counter(qs).most_common()`: the items stably sorted by descending count
(CPython `sorted(..., reverse=True)` keeps ties in original order, which a
stable merge sort with the reflexive relation `b.2 ≤ a.2` reproduces). -/
def mostCommon (qs : List ℚ) : List (ℚ × Nat) :=
  (counterItems qs).mergeSort (fun a b => decide (b.2 ≤ a.2))

/-- One output record of `most_prescribed`. -/
structure MPRecord where
  ndc : String
  most_prescribed_quantity : List ℚ
deriving DecidableEq

/-- `most_prescribed(claims, reverts)` from `src/utils/useful_utilities.py`. -/
def most_prescribed (claims : List Claim) (reverts : List Revert) : List MPRecord :=
  ((claims.foldl (mpStep (revertedClaims reverts)) []).map
    (fun e => { ndc := e.1, most_prescribed_quantity := (mostCommon e.2).map Prod.fst }))

/-- `pharmacy_chains.get(npi, 'Unknown')`. -/
def chainOf (dir : List (String × String)) (npi : String) : String :=
  (lookupA npi dir).getD "Unknown"

/-- The body of the claims loop in `recommendations`: append the price to the
(ndc, chain) list, and additionally the negated price when the claim is reverted. -/
def recStep (revIds : List String) (dir : List (String × String))
    (acc : List (String × List (String × List ℚ))) (c : Claim) :
    List (String × List (String × List ℚ)) :=
  let chain := chainOf dir c.npi
  let acc₁ := updateA c.ndc (updateA chain (fun l => l ++ [c.price]) []) [] acc
  if c.id ∈ revIds then
    updateA c.ndc (updateA chain (fun l => l ++ [-c.price]) []) [] acc₁
  else acc₁

/-- The fully built `ndc_metrics` nested dictionary of `recommendations`. -/
def recAssoc (claims : List Claim) (reverts : List Revert) (dir : List (String × String)) :
    List (String × List (String × List ℚ)) :=
  claims.foldl (recStep (revertedClaims reverts) dir) []

/-- One `{'name': chain, 'avg_price': ...}` entry of `recommendations`. -/
structure ChainRec where
  name : String
  avg_price : ℚ
deriving DecidableEq

/-- One output record of `recommendations`. -/
structure RecRecord where
  ndc : String
  chain : List ChainRec
deriving DecidableEq

/-- The per-chain averaging loop: `avg_price = sum(prices) / len(prices)`.
(The lists reached here are never empty, see the safety theorem for C10,
so the totalized rational division agrees with Python.) -/
def chainAvgs (inner : List (String × List ℚ)) : List ChainRec :=
  inner.map (fun ce => { name := ce.1, avg_price := ce.2.sum / (ce.2.length : ℚ) })

/-- `recommendations(claims, reverts, pharmacy_chains)` from
`src/utils/useful_utilities.py`: per ndc, the chain averages stably sorted
ascending by `avg_price`, truncated to the first two. -/
def recommendations (claims : List Claim) (reverts : List Revert)
    (dir : List (String × String)) : List RecRecord :=
  ((recAssoc claims reverts dir).map
    (fun e =>
      { ndc := e.1
        chain := ((chainAvgs e.2).mergeSort
            (fun a b => decide (a.avg_price ≤ b.avg_price))).take 2 }))

/-- Generic dict lookup defaulting to the empty list (`defaultdict(list)` read view). -/
def lookupList {κ ν : Type} [DecidableEq κ] (k : κ) (l : List (κ × List ν)) : List ν :=
  (lookupA k l).getD []

/-- The quantities of the non-reverted claims of a given ndc, in claim order:
exactly the values `most_prescribed` accumulates in `ndc_quantities[ndc]`. -/
def ndcQuantities (revIds : List String) (ndc : String) : List Claim → List ℚ
  | [] => []
  | c :: cs =>
    if c.id ∉ revIds ∧ c.ndc = ndc then c.quantity :: ndcQuantities revIds ndc cs
    else ndcQuantities revIds ndc cs

/-- The price samples `recommendations` accumulates in `ndc_metrics[ndc][chain]`:
for every claim resolving to this (ndc, chain), its `price`, immediately followed
by `-price` when the claim is reverted. -/
def priceSamples (revIds : List String) (dir : List (String × String)) (ndc chain : String) :
    List Claim → List ℚ
  | [] => []
  | c :: cs =>
    if c.ndc = ndc ∧ chainOf dir c.npi = chain then
      (if c.id ∈ revIds then [c.price, -c.price] else [c.price]) ++
        priceSamples revIds dir ndc chain cs
    else priceSamples revIds dir ndc chain cs

/-- Zero out the `reverted` field (used to state the frame property of reverts). -/
def stripReverted (r : MetricRecord) : MetricRecord :=
  { r with reverted := 0 }

/-- Zero out the `reverted` counter of a metrics accumulator entry. -/
def eraseRev (m : MAcc) : MAcc :=
  ⟨m.fills, 0, m.total_price⟩

/-- A claim record as assembled by the ingestion collaborator: a field is `none`
when the source JSON lacks it. Dictionary access `claim['f']` is `Option.bind`
(a missing key aborts the computation); `claim.get('quantity', 0.0)` is `getD 0`.
The timestamp is never read by any aggregator and is omitted. -/
structure RawClaim where
  id : Option String
  npi : Option String
  ndc : Option String
  price : Option ℚ
  quantity : Option ℚ
deriving DecidableEq

/-- `calculate_metrics` loop body over a raw claim, in source access order:
`npi`, `ndc`, `price`, `id`. -/
def metricsStepR (revIds : List String) (acc : List ((String × String) × MAcc)) (c : RawClaim) :
    Option (List ((String × String) × MAcc)) := do
  let npi ← c.npi
  let ndc ← c.ndc
  let price ← c.price
  let cid ← c.id
  pure (updateA (npi, ndc)
    (fun m =>
      { fills := m.fills + 1
        reverted := if cid ∈ revIds then m.reverted + 1 else m.reverted
        total_price := m.total_price + price })
    ⟨0, 0, 0⟩ acc)

/-- `calculate_metrics` over raw ingestion records; `none` models the
missing-key fault aborting the whole batch. -/
def calculate_metricsR (claims : List RawClaim) (reverts : List Revert) :
    Option (List MetricRecord) := do
  let m ← claims.foldlM (metricsStepR (revertedClaims reverts)) []
  pure (m.map
    (fun e =>
      { npi := e.1.1
        ndc := e.1.2
        fills := e.2.fills
        reverted := e.2.reverted
        avg_price := if e.2.fills ≠ 0 then e.2.total_price / (e.2.fills : ℚ) else 0
        total_price := e.2.total_price }))

/-- `most_prescribed` loop body over a raw claim: reads `npi` (unused), `ndc`,
`quantity` with default `0.0`, and `id`; never reads `price`. -/
def mpStepR (revIds : List String) (acc : List (String × List ℚ)) (c : RawClaim) :
    Option (List (String × List ℚ)) := do
  let _npi ← c.npi
  let ndc ← c.ndc
  let q := c.quantity.getD 0
  let cid ← c.id
  pure (if cid ∈ revIds then acc else updateA ndc (fun l => l ++ [q]) [] acc)

/-- `most_prescribed` over raw ingestion records. -/
def most_prescribedR (claims : List RawClaim) (reverts : List Revert) :
    Option (List MPRecord) := do
  let nq ← claims.foldlM (mpStepR (revertedClaims reverts)) []
  pure (nq.map (fun e => { ndc := e.1, most_prescribed_quantity := (mostCommon e.2).map Prod.fst }))

/-- `recommendations` loop body over a raw claim, in source access order:
`npi`, `ndc`, directory lookup, `price`, `id`. -/
def recStepR (revIds : List String) (dir : List (String × String))
    (acc : List (String × List (String × List ℚ))) (c : RawClaim) :
    Option (List (String × List (String × List ℚ))) := do
  let npi ← c.npi
  let ndc ← c.ndc
  let chain := chainOf dir npi
  let price ← c.price
  let cid ← c.id
  let acc₁ := updateA ndc (updateA chain (fun l => l ++ [price]) []) [] acc
  pure (if cid ∈ revIds then
      updateA ndc (updateA chain (fun l => l ++ [-price]) []) [] acc₁
    else acc₁)

/-- `recommendations` over raw ingestion records. -/
def recommendationsR (claims : List RawClaim) (reverts : List Revert)
    (dir : List (String × String)) : Option (List RecRecord) := do
  let nm ← claims.foldlM (recStepR (revertedClaims reverts) dir) []
  pure (nm.map
    (fun e =>
      { ndc := e.1
        chain := ((chainAvgs e.2).mergeSort
            (fun a b => decide (a.avg_price ≤ b.avg_price))).take 2 }))

example : calculate_metrics [⟨"c1", "p1", "d1", 10, 30, "t"⟩] [⟨"r1", "c1", "t"⟩] =
    [⟨"p1", "d1", 1, 1, 10, 10⟩] := by
  simp [calculate_metrics, metricsStep, updateA, revertedClaims]

example : most_prescribed
    [⟨"c1", "p1", "d1", 10, 5, "t"⟩, ⟨"c2", "p1", "d1", 10, 3, "t"⟩] [] =
    [⟨"d1", [5, 3]⟩] := by
  have h : List.mergeSort [((5 : ℚ), 1), ((3 : ℚ), 1)] (fun a b => decide (b.2 ≤ a.2)) =
      [(5, 1), (3, 1)] := List.mergeSort_of_sorted (by decide)
  norm_num [most_prescribed, mpStep, mostCommon, counterItems, firstOccs, countQ, updateA,
    revertedClaims, h]

/-! ### Association list lemmas -/

theorem lookupA_updateA_self {κ ν : Type} [DecidableEq κ] (k : κ) (f : ν → ν) (d : ν)
    (l : List (κ × ν)) :
    lookupA k (updateA k f d l) = some (f ((lookupA k l).getD d)) := by
  induction l with
  | nil => simp [lookupA, updateA]
  | cons e rest ih =>
    obtain ⟨k₁, v⟩ := e
    by_cases h : k₁ = k
    · subst h
      simp [lookupA, updateA]
    · simp [lookupA, updateA, h, ih]

theorem lookupA_updateA_of_ne {κ ν : Type} [DecidableEq κ] {q k : κ} (f : ν → ν) (d : ν)
    (l : List (κ × ν)) (hne : q ≠ k) :
    lookupA q (updateA k f d l) = lookupA q l := by
  induction l with
  | nil => simp [lookupA, updateA, Ne.symm hne]
  | cons e rest ih =>
    obtain ⟨k₁, v⟩ := e
    by_cases h : k₁ = k
    · subst h
      simp [lookupA, updateA, Ne.symm hne]
    · simp only [updateA, if_neg h, lookupA]
      by_cases h₂ : k₁ = q <;> simp [h₂, ih]

theorem keys_updateA {κ ν : Type} [DecidableEq κ] (k : κ) (f : ν → ν) (d : ν)
    (l : List (κ × ν)) :
    (updateA k f d l).map Prod.fst =
      if k ∈ l.map Prod.fst then l.map Prod.fst else l.map Prod.fst ++ [k] := by
  induction l with
  | nil => simp [updateA]
  | cons e rest ih =>
    obtain ⟨k₁, v⟩ := e
    by_cases h : k₁ = k
    · subst h
      simp [updateA]
    · simp only [updateA, if_neg h, List.map_cons, ih]
      by_cases h₂ : k ∈ rest.map Prod.fst <;>
        simp [h₂, List.mem_cons, Ne.symm h]

theorem nodupKeys_updateA {κ ν : Type} [DecidableEq κ] (k : κ) (f : ν → ν) (d : ν)
    {l : List (κ × ν)} (h : (l.map Prod.fst).Nodup) :
    ((updateA k f d l).map Prod.fst).Nodup := by
  rw [keys_updateA]
  by_cases hm : k ∈ l.map Prod.fst
  · simpa [hm] using h
  · simp [hm, List.nodup_append, h]

theorem mem_keys_updateA_self {κ ν : Type} [DecidableEq κ] (k : κ) (f : ν → ν) (d : ν)
    (l : List (κ × ν)) : k ∈ (updateA k f d l).map Prod.fst := by
  rw [keys_updateA]
  by_cases hm : k ∈ l.map Prod.fst <;> simp [hm]

theorem mem_keys_updateA_of_mem {κ ν : Type} [DecidableEq κ] {q : κ} (k : κ) (f : ν → ν) (d : ν)
    {l : List (κ × ν)} (h : q ∈ l.map Prod.fst) : q ∈ (updateA k f d l).map Prod.fst := by
  rw [keys_updateA]
  by_cases hm : k ∈ l.map Prod.fst <;> simp [hm, h]

theorem mem_updateA {κ ν : Type} [DecidableEq κ] {k : κ} {f : ν → ν} {d : ν}
    {l : List (κ × ν)} {e : κ × ν} (he : e ∈ updateA k f d l) :
    e ∈ l ∨ (∃ v, (k, v) ∈ l ∧ e = (k, f v)) ∨ e = (k, f d) := by
  induction l with
  | nil =>
    right; right
    simpa [updateA] using he
  | cons e₁ rest ih =>
    obtain ⟨k₁, v⟩ := e₁
    by_cases h : k₁ = k
    · subst h
      simp only [updateA, if_pos rfl] at he
      rcases List.mem_cons.mp he with h₁ | h₁
      · right; left
        exact ⟨v, List.mem_cons_self _ _, h₁⟩
      · left
        exact List.mem_cons_of_mem _ h₁
    · simp only [updateA, if_neg h] at he
      rcases List.mem_cons.mp he with h₁ | h₁
      · left
        simp [h₁]
      · rcases ih h₁ with h₂ | ⟨v₁, hv₁, h₂⟩ | h₂
        · exact Or.inl (List.mem_cons_of_mem _ h₂)
        · exact Or.inr (Or.inl ⟨v₁, List.mem_cons_of_mem _ hv₁, h₂⟩)
        · exact Or.inr (Or.inr h₂)

theorem lookupA_of_mem_nodupKeys {κ ν : Type} [DecidableEq κ] {k : κ} {v : ν}
    {l : List (κ × ν)} (hnd : (l.map Prod.fst).Nodup) (hm : (k, v) ∈ l) :
    lookupA k l = some v := by
  induction l with
  | nil => simp at hm
  | cons e rest ih =>
    obtain ⟨k₁, v₁⟩ := e
    rcases List.mem_cons.mp hm with h | h
    · obtain ⟨h₁, h₂⟩ := Prod.mk.injEq .. ▸ h
      simp [lookupA, h₁.symm, h₂]
    · have hk : k ∈ rest.map Prod.fst := by
        exact List.mem_map.mpr ⟨(k, v), h, rfl⟩
      have hne : k₁ ≠ k := by
        rintro rfl
        exact (List.nodup_cons.mp (by simpa using hnd)).1 hk
      simp only [lookupA, if_neg hne]
      exact ih (List.nodup_cons.mp (by simpa using hnd)).2 h

/-! ### Generic list and fold lemmas -/

theorem foldl_congr_mem {α σ : Type} {f g : σ → α → σ} :
    ∀ (cs : List α) (a : σ), (∀ s c, c ∈ cs → f s c = g s c) →
      cs.foldl f a = cs.foldl g a := by
  intro cs
  induction cs with
  | nil => intro a _; rfl
  | cons c rest ih =>
    intro a h
    simp only [List.foldl_cons]
    rw [h a c (List.mem_cons_self _ _)]
    exact ih _ (fun s c₁ hc₁ => h s c₁ (List.mem_cons_of_mem _ hc₁))

theorem foldlM_none {α σ : Type} {f : σ → α → Option σ} {c : α} :
    ∀ (cs : List α) (a : σ), c ∈ cs → (∀ s, f s c = none) →
      cs.foldlM f a = none := by
  intro cs
  induction cs with
  | nil => intro a h; simp at h
  | cons c₁ rest ih =>
    intro a hmem hf
    rw [List.foldlM_cons]
    by_cases hc : c₁ = c
    · subst hc
      rw [hf a]
      rfl
    · cases hfa : f a c₁ with
      | none => rfl
      | some a₁ =>
        have hmem₂ : c ∈ rest := by
          rcases List.mem_cons.mp hmem with h | h
          · exact absurd h.symm hc
          · exact h
        simpa using ih a₁ hmem₂ hf

theorem foldlM_isSome {α σ : Type} {f : σ → α → Option σ} :
    ∀ (cs : List α) (a : σ), (∀ (s : σ) (c : α), c ∈ cs → (f s c).isSome = true) →
      (cs.foldlM f a).isSome = true := by
  intro cs
  induction cs with
  | nil => intro a _; rfl
  | cons c rest ih =>
    intro a h
    rw [List.foldlM_cons]
    obtain ⟨a₁, ha₁⟩ := Option.isSome_iff_exists.mp (h a c (List.mem_cons_self _ _))
    rw [ha₁]
    simpa using ih a₁ (fun s c₁ hc₁ => h s c₁ (List.mem_cons_of_mem _ hc₁))

theorem metricsStepR_isSome (rev : List String) (s : List ((String × String) × MAcc))
    (c : RawClaim) (hid : c.id ≠ none) (hnpi : c.npi ≠ none) (hndc : c.ndc ≠ none)
    (hprice : c.price ≠ none) : (metricsStepR rev s c).isSome = true := by
  obtain ⟨i, hi⟩ := Option.ne_none_iff_exists'.mp hid
  obtain ⟨n, hn⟩ := Option.ne_none_iff_exists'.mp hnpi
  obtain ⟨d, hd⟩ := Option.ne_none_iff_exists'.mp hndc
  obtain ⟨p, hp⟩ := Option.ne_none_iff_exists'.mp hprice
  simp [metricsStepR, hi, hn, hd, hp]

theorem mpStepR_isSome (rev : List String) (s : List (String × List ℚ))
    (c : RawClaim) (hid : c.id ≠ none) (hnpi : c.npi ≠ none) (hndc : c.ndc ≠ none) :
    (mpStepR rev s c).isSome = true := by
  obtain ⟨i, hi⟩ := Option.ne_none_iff_exists'.mp hid
  obtain ⟨n, hn⟩ := Option.ne_none_iff_exists'.mp hnpi
  obtain ⟨d, hd⟩ := Option.ne_none_iff_exists'.mp hndc
  simp [mpStepR, hi, hn, hd]

theorem recStepR_isSome (rev : List String) (dir : List (String × String))
    (s : List (String × List (String × List ℚ))) (c : RawClaim) (hid : c.id ≠ none)
    (hnpi : c.npi ≠ none) (hndc : c.ndc ≠ none) (hprice : c.price ≠ none) :
    (recStepR rev dir s c).isSome = true := by
  obtain ⟨i, hi⟩ := Option.ne_none_iff_exists'.mp hid
  obtain ⟨n, hn⟩ := Option.ne_none_iff_exists'.mp hnpi
  obtain ⟨d, hd⟩ := Option.ne_none_iff_exists'.mp hndc
  obtain ⟨p, hp⟩ := Option.ne_none_iff_exists'.mp hprice
  simp [recStepR, hi, hn, hd, hp]

theorem calculate_metricsR_isSome (claims : List RawClaim) (reverts : List Revert)
    (h : ∀ c : RawClaim, c ∈ claims →
      c.id ≠ none ∧ c.npi ≠ none ∧ c.ndc ≠ none ∧ c.price ≠ none) :
    (calculate_metricsR claims reverts).isSome = true := by
  have h1 := foldlM_isSome claims ([] : List ((String × String) × MAcc))
    (fun s c hc => metricsStepR_isSome (revertedClaims reverts) s c
      (h c hc).1 (h c hc).2.1 (h c hc).2.2.1 (h c hc).2.2.2)
  obtain ⟨m, hm⟩ := Option.isSome_iff_exists.mp h1
  unfold calculate_metricsR
  rw [hm]
  rfl

theorem most_prescribedR_isSome (claims : List RawClaim) (reverts : List Revert)
    (h : ∀ c : RawClaim, c ∈ claims → c.id ≠ none ∧ c.npi ≠ none ∧ c.ndc ≠ none) :
    (most_prescribedR claims reverts).isSome = true := by
  have h1 := foldlM_isSome claims ([] : List (String × List ℚ))
    (fun s c hc => mpStepR_isSome (revertedClaims reverts) s c
      (h c hc).1 (h c hc).2.1 (h c hc).2.2)
  obtain ⟨m, hm⟩ := Option.isSome_iff_exists.mp h1
  unfold most_prescribedR
  rw [hm]
  rfl

theorem recommendationsR_isSome (claims : List RawClaim) (reverts : List Revert)
    (dir : List (String × String))
    (h : ∀ c : RawClaim, c ∈ claims →
      c.id ≠ none ∧ c.npi ≠ none ∧ c.ndc ≠ none ∧ c.price ≠ none) :
    (recommendationsR claims reverts dir).isSome = true := by
  have h1 := foldlM_isSome claims ([] : List (String × List (String × List ℚ)))
    (fun s c hc => recStepR_isSome (revertedClaims reverts) dir s c
      (h c hc).1 (h c hc).2.1 (h c hc).2.2.1 (h c hc).2.2.2)
  obtain ⟨m, hm⟩ := Option.isSome_iff_exists.mp h1
  unfold recommendationsR
  rw [hm]
  rfl

theorem pair_sublist_of_mem {α : Type} {x y : α} :
    ∀ {l : List α}, x ∈ l → y ∈ l → x ≠ y → [x, y] <+ l ∨ [y, x] <+ l := by
  intro l
  induction l with
  | nil => simp
  | cons a t ih =>
    intro hx hy hne
    rcases List.mem_cons.mp hx with hxa | hxt
    · subst hxa
      have hyt : y ∈ t := by
        rcases List.mem_cons.mp hy with h | h
        · exact absurd h.symm hne
        · exact h
      exact Or.inl (List.Sublist.cons₂ x (List.singleton_sublist.mpr hyt))
    · rcases List.mem_cons.mp hy with hya | hyt
      · subst hya
        exact Or.inr (List.Sublist.cons₂ y (List.singleton_sublist.mpr hxt))
      · rcases ih hxt hyt hne with h | h
        · exact Or.inl (List.Sublist.cons _ h)
        · exact Or.inr (List.Sublist.cons _ h)

theorem pair_sublist_antisymm {α : Type} {x y : α} :
    ∀ {l : List α}, l.Nodup → [x, y] <+ l → [y, x] <+ l → x = y := by
  intro l
  induction l with
  | nil =>
    intro _ h
    exact absurd h (by simp)
  | cons a t ih =>
    intro hnd h1 h2
    cases h1 with
    | cons _ h1t =>
      cases h2 with
      | cons _ h2t => exact ih (List.nodup_cons.mp hnd).2 h1t h2t
      | cons₂ _ h2t =>
        have hyt : y ∈ t := h1t.subset (by simp)
        exact absurd hyt (List.nodup_cons.mp hnd).1
    | cons₂ _ h1t =>
      cases h2 with
      | cons _ h2t =>
        have hxt : x ∈ t := h2t.subset (by simp)
        exact absurd hxt (List.nodup_cons.mp hnd).1
      | cons₂ _ h2t => rfl

/-! ### Counter / most_common lemmas -/

theorem nodup_firstOccs (qs : List ℚ) : (firstOccs qs).Nodup := by
  induction qs with
  | nil => simp [firstOccs]
  | cons q qs ih =>
    simp only [firstOccs, List.nodup_cons]
    refine ⟨fun hmem => ?_, ih.filter _⟩
    have := (List.mem_filter.mp hmem).2
    simp at this

theorem mem_firstOccs {q : ℚ} (qs : List ℚ) : q ∈ firstOccs qs ↔ q ∈ qs := by
  induction qs with
  | nil => simp [firstOccs]
  | cons x xs ih =>
    by_cases h : q = x
    · simp [firstOccs, h]
    · simp [firstOccs, List.mem_filter, h, ih]

theorem pairwise_firstIdx_firstOccs (qs : List ℚ) :
    (firstOccs qs).Pairwise (fun a b => firstIdx a qs < firstIdx b qs) := by
  induction qs with
  | nil => simp [firstOccs]
  | cons x xs ih =>
    simp only [firstOccs, List.pairwise_cons]
    constructor
    · intro b hb
      have hbx : b ≠ x := by
        have := (List.mem_filter.mp hb).2
        simpa using this
      simp [firstIdx, Ne.symm hbx]
    · have hpw := ih.filter (fun y => decide (y ≠ x))
      refine List.Pairwise.imp_of_mem ?_ hpw
      intro a b ha hb hlt
      have hax : a ≠ x := by
        have := (List.mem_filter.mp ha).2
        simpa using this
      have hbx : b ≠ x := by
        have := (List.mem_filter.mp hb).2
        simpa using this
      simp only [firstIdx, if_neg (Ne.symm hax), if_neg (Ne.symm hbx)]
      omega

theorem keys_counterItems (qs : List ℚ) : (counterItems qs).map Prod.fst = firstOccs qs := by
  simp only [counterItems, List.map_map]
  exact List.map_id'' (fun _ => rfl) _

theorem nodup_counterItems (qs : List ℚ) : (counterItems qs).Nodup := by
  have h : ((counterItems qs).map Prod.fst).Nodup := by
    rw [keys_counterItems]
    exact nodup_firstOccs qs
  exact h.of_map _

theorem cLE_trans (a b c : ℚ × Nat) (h₁ : decide (b.2 ≤ a.2) = true)
    (h₂ : decide (c.2 ≤ b.2) = true) : decide (c.2 ≤ a.2) = true := by
  simp only [decide_eq_true_eq] at *
  omega

theorem cLE_total (a b : ℚ × Nat) : (decide (b.2 ≤ a.2) || decide (a.2 ≤ b.2)) = true := by
  simp only [Bool.or_eq_true, decide_eq_true_eq]
  omega

theorem nodup_mostCommon (qs : List ℚ) : (mostCommon qs).Nodup :=
  (List.mergeSort_perm (counterItems qs) _).nodup_iff.mpr (nodup_counterItems qs)

theorem mostCommon_keys_perm (qs : List ℚ) :
    (mostCommon qs).map Prod.fst ~ firstOccs qs := by
  have h := (List.mergeSort_perm (counterItems qs)
    (fun a b => decide (b.2 ≤ a.2))).map Prod.fst
  rwa [keys_counterItems] at h

theorem nodup_mostCommon_keys (qs : List ℚ) : ((mostCommon qs).map Prod.fst).Nodup :=
  (mostCommon_keys_perm qs).nodup_iff.mpr (nodup_firstOccs qs)

theorem mem_mostCommon_keys {q : ℚ} (qs : List ℚ) :
    q ∈ (mostCommon qs).map Prod.fst ↔ q ∈ qs :=
  ((mostCommon_keys_perm qs).mem_iff).trans (mem_firstOccs qs)

theorem pairwise_mostCommon (qs : List ℚ) :
    ((mostCommon qs).map Prod.fst).Pairwise (fun a b =>
      countQ b qs < countQ a qs ∨
        (countQ b qs = countQ a qs ∧ firstIdx a qs < firstIdx b qs)) := by
  rw [List.pairwise_map, List.pairwise_iff_forall_sublist]
  intro x y hsub
  have hsorted : (mostCommon qs).Pairwise (fun a b => decide (b.2 ≤ a.2) = true) :=
    List.sorted_mergeSort cLE_trans cLE_total (counterItems qs)
  have hle : decide (y.2 ≤ x.2) = true :=
    List.pairwise_iff_forall_sublist.mp hsorted hsub
  have hxm : x ∈ counterItems qs := List.mem_mergeSort.mp (hsub.subset (by simp))
  have hym : y ∈ counterItems qs := List.mem_mergeSort.mp (hsub.subset (by simp))
  obtain ⟨qx, hqxf, rfl⟩ := List.mem_map.mp hxm
  obtain ⟨qy, hqyf, rfl⟩ := List.mem_map.mp hym
  dsimp only at hle hsub ⊢
  have hyx : countQ qy qs ≤ countQ qx qs := of_decide_eq_true hle
  rcases Nat.lt_or_ge (countQ qy qs) (countQ qx qs) with hlt | hge
  · exact Or.inl hlt
  · have heq : countQ qy qs = countQ qx qs := Nat.le_antisymm hyx hge
    have hnd2 : ([(qx, countQ qx qs), (qy, countQ qy qs)] : List (ℚ × Nat)).Nodup :=
      List.Nodup.sublist hsub (nodup_mostCommon qs)
    have hxy : (qx, countQ qx qs) ≠ (qy, countQ qy qs) := by
      intro h
      rw [h] at hnd2
      simp at hnd2
    have hfst : qx ≠ qy := fun h1 => hxy (by rw [h1])
    rcases pair_sublist_of_mem hxm hym hxy with hci | hci
    · have hsub2 : [qx, qy] <+ firstOccs qs := by
        have h := hci.map Prod.fst
        rw [keys_counterItems] at h
        simpa using h
      have hidx := List.pairwise_iff_forall_sublist.mp (pairwise_firstIdx_firstOccs qs) hsub2
      exact Or.inr ⟨heq, hidx⟩
    · have hyx2 : decide ((qx, countQ qx qs).2 ≤ (qy, countQ qy qs).2) = true := by
        simp [heq]
      have hms : [(qy, countQ qy qs), (qx, countQ qx qs)] <+ mostCommon qs :=
        List.pair_sublist_mergeSort cLE_trans cLE_total hyx2 hci
      exact absurd (pair_sublist_antisymm (nodup_mostCommon qs) hsub hms) hxy

/-! ### Fold invariants -/

theorem foldl_preserves {α σ : Type} {P : σ → Prop} {f : σ → α → σ}
    (hstep : ∀ s c, P s → P (f s c)) :
    ∀ (cs : List α) (s : σ), P s → P (cs.foldl f s) := by
  intro cs
  induction cs with
  | nil => intro s h; exact h
  | cons c cs ih =>
    intro s h
    exact ih _ (hstep s c h)

theorem nodupKeys_foldl_mpStep (rev : List String) (cs : List Claim)
    {acc : List (String × List ℚ)} (h : (acc.map Prod.fst).Nodup) :
    ((cs.foldl (mpStep rev) acc).map Prod.fst).Nodup := by
  refine foldl_preserves (P := fun m => (m.map Prod.fst).Nodup) ?_ cs acc h
  intro s c hs
  unfold mpStep
  by_cases hrev : c.id ∈ rev
  · simpa [hrev] using hs
  · simpa [hrev] using nodupKeys_updateA _ _ _ hs

theorem lookupList_foldl_mpStep (rev : List String) (ndc : String) :
    ∀ (cs : List Claim) (acc : List (String × List ℚ)),
      lookupList ndc (cs.foldl (mpStep rev) acc) =
        lookupList ndc acc ++ ndcQuantities rev ndc cs := by
  intro cs
  induction cs with
  | nil =>
    intro acc
    simp [ndcQuantities]
  | cons c cs ih =>
    intro acc
    simp only [List.foldl_cons]
    rw [ih]
    by_cases hrev : c.id ∈ rev
    · have h1 : mpStep rev acc c = acc := by simp [mpStep, hrev]
      have h2 : ndcQuantities rev ndc (c :: cs) = ndcQuantities rev ndc cs := by
        simp [ndcQuantities, hrev]
      rw [h1, h2]
    · have h1 : mpStep rev acc c = updateA c.ndc (fun l => l ++ [c.quantity]) [] acc := by
        simp [mpStep, hrev]
      rw [h1]
      by_cases hndc : c.ndc = ndc
      · subst hndc
        have h3 : lookupList c.ndc (updateA c.ndc (fun l => l ++ [c.quantity]) [] acc) =
            lookupList c.ndc acc ++ [c.quantity] := by
          simp [lookupList, lookupA_updateA_self]
        have h4 : ndcQuantities rev c.ndc (c :: cs) =
            c.quantity :: ndcQuantities rev c.ndc cs := by
          simp [ndcQuantities, hrev]
        rw [h3, h4]
        simp [List.append_assoc]
      · have h3 : lookupList ndc (updateA c.ndc (fun l => l ++ [c.quantity]) [] acc) =
            lookupList ndc acc := by
          simp [lookupList, lookupA_updateA_of_ne _ _ _ (Ne.symm hndc)]
        have h4 : ndcQuantities rev ndc (c :: cs) = ndcQuantities rev ndc cs := by
          simp [ndcQuantities, hndc]
        rw [h3, h4]

theorem mp_entry_eq_ndcQuantities {claims : List Claim} {rev : List String}
    {ndc : String} {l : List ℚ}
    (hm : (ndc, l) ∈ claims.foldl (mpStep rev) []) :
    l = ndcQuantities rev ndc claims := by
  have hnd : ((claims.foldl (mpStep rev) []).map Prod.fst).Nodup :=
    nodupKeys_foldl_mpStep rev claims (by simp)
  have hl : lookupA ndc (claims.foldl (mpStep rev) []) = some l :=
    lookupA_of_mem_nodupKeys hnd hm
  have hc := lookupList_foldl_mpStep rev ndc claims []
  rw [lookupList, hl] at hc
  simpa [lookupList, lookupA] using hc

theorem sum_proj_updateA {κ ν : Type} [DecidableEq κ] (g : ν → Nat) (k : κ) (f : ν → ν)
    (d : ν) (δ : Nat) (l : List (κ × ν)) (hf : ∀ v, g (f v) = g v + δ) (h0 : g d = 0) :
    ((updateA k f d l).map (fun e => g e.2)).sum = (l.map (fun e => g e.2)).sum + δ := by
  induction l with
  | nil => simp [updateA, hf, h0]
  | cons e rest ih =>
    obtain ⟨k₁, v⟩ := e
    by_cases h : k₁ = k
    · subst h
      simp [updateA, hf]
      omega
    · simp only [updateA, if_neg h, List.map_cons, List.sum_cons, ih]
      omega

theorem sumFills_foldl (rev : List String) :
    ∀ (cs : List Claim) (acc : List ((String × String) × MAcc)),
      ((cs.foldl (metricsStep rev) acc).map (fun e => e.2.fills)).sum =
        (acc.map (fun e => e.2.fills)).sum + cs.length := by
  intro cs
  induction cs with
  | nil => intro acc; simp
  | cons c cs ih =>
    intro acc
    simp only [List.foldl_cons]
    rw [ih]
    have hstep : (((metricsStep rev acc c).map (fun e => e.2.fills)).sum) =
        (acc.map (fun e => e.2.fills)).sum + 1 := by
      unfold metricsStep
      exact sum_proj_updateA _ _ _ _ 1 acc (fun v => rfl) rfl
    rw [hstep]
    simp only [List.length_cons]
    omega

theorem sumReverted_foldl (rev : List String) :
    ∀ (cs : List Claim) (acc : List ((String × String) × MAcc)),
      ((cs.foldl (metricsStep rev) acc).map (fun e => e.2.reverted)).sum =
        (acc.map (fun e => e.2.reverted)).sum +
          ((cs.map (·.id)).filter (fun i => decide (i ∈ rev))).length := by
  intro cs
  induction cs with
  | nil => intro acc; simp
  | cons c cs ih =>
    intro acc
    simp only [List.foldl_cons]
    rw [ih]
    have hstep : (((metricsStep rev acc c).map (fun e => e.2.reverted)).sum) =
        (acc.map (fun e => e.2.reverted)).sum + (if c.id ∈ rev then 1 else 0) := by
      unfold metricsStep
      refine sum_proj_updateA _ _ _ _ _ acc (fun v => ?_) ?_
      · by_cases h : c.id ∈ rev <;> simp [h]
      · by_cases h : c.id ∈ rev <;> simp [h]
    rw [hstep]
    simp only [List.map_cons, List.filter_cons]
    by_cases h : c.id ∈ rev <;> (simp [h]; try omega)

theorem nodup_length_eq_of_mem_iff {α : Type} [DecidableEq α] {l₁ l₂ : List α}
    (h₁ : l₁.Nodup) (h₂ : l₂.Nodup) (h : ∀ a, a ∈ l₁ ↔ a ∈ l₂) :
    l₁.length = l₂.length :=
  ((List.perm_ext_iff_of_nodup h₁ h₂).mpr h).length_eq

theorem map_updateA {κ ν : Type} [DecidableEq κ] (h : ν → ν) (k : κ) (f g : ν → ν) (d : ν)
    (l : List (κ × ν)) (hfg : ∀ v, h (f v) = g (h v)) :
    (updateA k f d l).map (fun e => (e.1, h e.2)) =
      updateA k g (h d) (l.map (fun e => (e.1, h e.2))) := by
  induction l with
  | nil => simp [updateA, hfg]
  | cons e rest ih =>
    obtain ⟨k₁, v⟩ := e
    by_cases hk : k₁ = k
    · subst hk
      simp [updateA, hfg]
    · simp [updateA, hk, ih]

theorem eraseRev_metricsStep (rev : List String) (acc : List ((String × String) × MAcc))
    (c : Claim) :
    (metricsStep rev acc c).map (fun e => (e.1, eraseRev e.2)) =
      metricsStep [] (acc.map (fun e => (e.1, eraseRev e.2))) c := by
  unfold metricsStep
  exact map_updateA eraseRev (c.npi, c.ndc) _
    (fun m =>
      { fills := m.fills + 1
        reverted := if c.id ∈ ([] : List String) then m.reverted + 1 else m.reverted
        total_price := m.total_price + c.price })
    ⟨0, 0, 0⟩ acc (fun v => by simp [eraseRev])

theorem eraseRev_foldl (rev : List String) (cs : List Claim) :
    (cs.foldl (metricsStep rev) []).map (fun e => (e.1, eraseRev e.2)) =
      cs.foldl (metricsStep []) [] := by
  suffices h : ∀ (cs : List Claim) (acc : List ((String × String) × MAcc)),
      (cs.foldl (metricsStep rev) acc).map (fun e => (e.1, eraseRev e.2)) =
        cs.foldl (metricsStep []) (acc.map (fun e => (e.1, eraseRev e.2))) by
    simpa using h cs []
  intro cs
  induction cs with
  | nil => intro acc; simp
  | cons c cs ih =>
    intro acc
    simp only [List.foldl_cons]
    rw [ih, eraseRev_metricsStep]

theorem calculate_metrics_strip_eq (claims : List Claim) (rev : List Revert) :
    (calculate_metrics claims rev).map stripReverted =
      ((claims.foldl (metricsStep []) []).map
        (fun e =>
          ({ npi := e.1.1
             ndc := e.1.2
             fills := e.2.fills
             reverted := 0
             avg_price := if e.2.fills ≠ 0 then e.2.total_price / (e.2.fills : ℚ) else 0
             total_price := e.2.total_price } : MetricRecord))) := by
  unfold calculate_metrics
  rw [List.map_map, ← eraseRev_foldl (revertedClaims rev) claims, List.map_map]
  rfl

/-! ### recommendations fold lemmas -/

theorem lookup2_updateA (m : List (String × List (String × List ℚ))) (n₀ c₀ : String)
    (p : ℚ) (ndc chain : String) :
    lookupList chain (lookupList ndc
        (updateA n₀ (updateA c₀ (fun l => l ++ [p]) []) [] m)) =
      if n₀ = ndc ∧ c₀ = chain then lookupList chain (lookupList ndc m) ++ [p]
      else lookupList chain (lookupList ndc m) := by
  by_cases hn : n₀ = ndc
  · subst hn
    have h1 : lookupList n₀ (updateA n₀ (updateA c₀ (fun l => l ++ [p]) []) [] m) =
        updateA c₀ (fun l => l ++ [p]) [] (lookupList n₀ m) := by
      simp [lookupList, lookupA_updateA_self]
    rw [h1]
    by_cases hc : c₀ = chain
    · subst hc
      simp [lookupList, lookupA_updateA_self]
    · simp [lookupList, lookupA_updateA_of_ne _ _ _ (Ne.symm hc), hc]
  · simp [lookupList, lookupA_updateA_of_ne _ _ _ (Ne.symm hn), hn]

theorem lookup2_foldl_recStep (rev : List String) (dir : List (String × String))
    (ndc chain : String) :
    ∀ (cs : List Claim) (acc : List (String × List (String × List ℚ))),
      lookupList chain (lookupList ndc (cs.foldl (recStep rev dir) acc)) =
        lookupList chain (lookupList ndc acc) ++ priceSamples rev dir ndc chain cs := by
  intro cs
  induction cs with
  | nil =>
    intro acc
    simp [priceSamples]
  | cons c cs ih =>
    intro acc
    simp only [List.foldl_cons]
    rw [ih]
    by_cases hrev : c.id ∈ rev
    · have hstep : recStep rev dir acc c =
          updateA c.ndc (updateA (chainOf dir c.npi) (fun l => l ++ [-c.price]) []) []
            (updateA c.ndc (updateA (chainOf dir c.npi) (fun l => l ++ [c.price]) []) []
              acc) := by
        simp [recStep, hrev]
      rw [hstep, lookup2_updateA, lookup2_updateA]
      by_cases hm : c.ndc = ndc ∧ chainOf dir c.npi = chain
      · have hps : priceSamples rev dir ndc chain (c :: cs) =
            [c.price, -c.price] ++ priceSamples rev dir ndc chain cs := by
          simp [priceSamples, hm, hrev]
        rw [hps]
        simp [hm, List.append_assoc]
      · have hps : priceSamples rev dir ndc chain (c :: cs) =
            priceSamples rev dir ndc chain cs := by
          simp [priceSamples, hm]
        rw [hps]
        simp [hm]
    · have hstep : recStep rev dir acc c =
          updateA c.ndc (updateA (chainOf dir c.npi) (fun l => l ++ [c.price]) []) [] acc := by
        simp [recStep, hrev]
      rw [hstep, lookup2_updateA]
      by_cases hm : c.ndc = ndc ∧ chainOf dir c.npi = chain
      · have hps : priceSamples rev dir ndc chain (c :: cs) =
            [c.price] ++ priceSamples rev dir ndc chain cs := by
          simp [priceSamples, hm, hrev]
        rw [hps]
        simp [hm, List.append_assoc]
      · have hps : priceSamples rev dir ndc chain (c :: cs) =
            priceSamples rev dir ndc chain cs := by
          simp [priceSamples, hm]
        rw [hps]
        simp [hm]

theorem recAssoc_nodupKeys (claims : List Claim) (reverts : List Revert)
    (dir : List (String × String)) :
    ((recAssoc claims reverts dir).map Prod.fst).Nodup := by
  unfold recAssoc
  refine foldl_preserves
    (P := fun m : List (String × List (String × List ℚ)) => (m.map Prod.fst).Nodup)
    ?_ claims [] (by simp)
  intro s c hs
  unfold recStep
  by_cases hrev : c.id ∈ revertedClaims reverts
  · simp only [hrev, if_true]
    exact nodupKeys_updateA _ _ _ (nodupKeys_updateA _ _ _ hs)
  · simp only [hrev, if_false]
    exact nodupKeys_updateA _ _ _ hs

theorem inner_nodup_updateA_step (k chain : String) (g : List ℚ → List ℚ)
    {m : List (String × List (String × List ℚ))}
    (hm : ∀ e : String × List (String × List ℚ), e ∈ m → (e.2.map Prod.fst).Nodup) :
    ∀ e : String × List (String × List ℚ), e ∈ updateA k (updateA chain g []) [] m →
      (e.2.map Prod.fst).Nodup := by
  intro e he
  rcases mem_updateA he with h | ⟨v, hv, rfl⟩ | rfl
  · exact hm _ h
  · exact nodupKeys_updateA _ _ _ (hm _ hv)
  · simp [updateA]

theorem recAssoc_inner_nodupKeys (claims : List Claim) (reverts : List Revert)
    (dir : List (String × String)) :
    ∀ e : String × List (String × List ℚ), e ∈ recAssoc claims reverts dir →
      (e.2.map Prod.fst).Nodup := by
  unfold recAssoc
  refine foldl_preserves
    (P := fun m : List (String × List (String × List ℚ)) =>
      ∀ e : String × List (String × List ℚ), e ∈ m → (e.2.map Prod.fst).Nodup)
    ?_ claims [] (by simp)
  intro s c hs
  unfold recStep
  by_cases hrev : c.id ∈ revertedClaims reverts
  · simp only [hrev, if_true]
    exact inner_nodup_updateA_step _ _ _ (inner_nodup_updateA_step _ _ _ hs)
  · simp only [hrev, if_false]
    exact inner_nodup_updateA_step _ _ _ hs

theorem inner_nonempty_updateA_step (k chain : String) (x : ℚ)
    {m : List (String × List (String × List ℚ))}
    (hm : ∀ e : String × List (String × List ℚ), e ∈ m → ∀ q : String × List ℚ,
      q ∈ e.2 → q.2 ≠ []) :
    ∀ e : String × List (String × List ℚ),
      e ∈ updateA k (updateA chain (fun l => l ++ [x]) []) [] m →
      ∀ q : String × List ℚ, q ∈ e.2 → q.2 ≠ [] := by
  intro e he q hq
  rcases mem_updateA he with h | ⟨v, hv, rfl⟩ | rfl
  · exact hm _ h q hq
  · rcases mem_updateA hq with h₂ | ⟨w, hw, rfl⟩ | rfl
    · exact hm _ hv q h₂
    · simp
    · simp
  · simp only [updateA, List.mem_singleton] at hq
    subst hq
    simp

theorem recAssoc_inner_nonempty (claims : List Claim) (reverts : List Revert)
    (dir : List (String × String)) :
    ∀ e : String × List (String × List ℚ), e ∈ recAssoc claims reverts dir →
      ∀ q : String × List ℚ, q ∈ e.2 → q.2 ≠ [] := by
  unfold recAssoc
  refine foldl_preserves
    (P := fun m : List (String × List (String × List ℚ)) =>
      ∀ e : String × List (String × List ℚ), e ∈ m →
      ∀ q : String × List ℚ, q ∈ e.2 → q.2 ≠ [])
    ?_ claims [] (by simp)
  intro s c hs
  unfold recStep
  by_cases hrev : c.id ∈ revertedClaims reverts
  · simp only [hrev, if_true]
    exact inner_nonempty_updateA_step _ _ _ (inner_nonempty_updateA_step _ _ _ hs)
  · simp only [hrev, if_false]
    exact inner_nonempty_updateA_step _ _ _ hs

theorem ndc_mem_keys_recAssoc (claims : List Claim) (reverts : List Revert)
    (dir : List (String × String)) (c : Claim) (hc : c ∈ claims) :
    c.ndc ∈ (recAssoc claims reverts dir).map Prod.fst := by
  unfold recAssoc
  have hmono : ∀ (cs : List Claim) (acc : List (String × List (String × List ℚ))),
      c.ndc ∈ acc.map Prod.fst →
      c.ndc ∈ (cs.foldl (recStep (revertedClaims reverts) dir) acc).map Prod.fst := by
    intro cs acc h
    refine foldl_preserves
      (P := fun m : List (String × List (String × List ℚ)) => c.ndc ∈ m.map Prod.fst)
      ?_ cs acc h
    intro s c₁ hs
    unfold recStep
    by_cases hrev : c₁.id ∈ revertedClaims reverts
    · simp only [hrev, if_true]
      exact mem_keys_updateA_of_mem _ _ _ (mem_keys_updateA_of_mem _ _ _ hs)
    · simp only [hrev, if_false]
      exact mem_keys_updateA_of_mem _ _ _ hs
  have main : ∀ (cs : List Claim) (acc : List (String × List (String × List ℚ))),
      c ∈ cs →
      c.ndc ∈ (cs.foldl (recStep (revertedClaims reverts) dir) acc).map Prod.fst := by
    intro cs
    induction cs with
    | nil =>
      intro acc h
      simp at h
    | cons a t ih =>
      intro acc h
      rcases List.mem_cons.mp h with rfl | ht
      · simp only [List.foldl_cons]
        refine hmono t _ ?_
        unfold recStep
        by_cases hrev : c.id ∈ revertedClaims reverts
        · simp only [hrev, if_true]
          exact mem_keys_updateA_self _ _ _ _
        · simp only [hrev, if_false]
          exact mem_keys_updateA_self _ _ _ _
      · simp only [List.foldl_cons]
        exact ih _ ht
  exact main claims [] hc

theorem rec_entry_eq_priceSamples {claims : List Claim} {reverts : List Revert}
    {dir : List (String × String)} {ndc : String} {inner : List (String × List ℚ)}
    (h : (ndc, inner) ∈ recAssoc claims reverts dir) {chain : String} {pl : List ℚ}
    (h₂ : (chain, pl) ∈ inner) :
    pl = priceSamples (revertedClaims reverts) dir ndc chain claims := by
  have houter : lookupA ndc (recAssoc claims reverts dir) = some inner :=
    lookupA_of_mem_nodupKeys (recAssoc_nodupKeys claims reverts dir) h
  have hinner : lookupA chain inner = some pl :=
    lookupA_of_mem_nodupKeys (recAssoc_inner_nodupKeys claims reverts dir _ h) h₂
  have hc := lookup2_foldl_recStep (revertedClaims reverts) dir ndc chain claims []
  unfold recAssoc at houter
  simp only [lookupList] at hc
  rw [houter] at hc
  simp only [Option.getD_some] at hc
  rw [hinner] at hc
  simpa [lookupA] using hc

theorem price_mem_priceSamples (rev : List String) (dir : List (String × String)) :
    ∀ (cs : List Claim) (c : Claim), c ∈ cs →
      c.price ∈ priceSamples rev dir c.ndc (chainOf dir c.npi) cs := by
  intro cs
  induction cs with
  | nil =>
    intro c h
    simp at h
  | cons a t ih =>
    intro c hc
    rcases List.mem_cons.mp hc with rfl | ht
    · simp only [priceSamples, if_pos (And.intro rfl rfl)]
      by_cases hrev : c.id ∈ rev <;> simp [hrev]
    · by_cases hcond : a.ndc = c.ndc ∧ chainOf dir a.npi = chainOf dir c.npi
      · simp only [priceSamples, if_pos hcond]
        exact List.mem_append_right _ (ih c ht)
      · simp only [priceSamples, if_neg hcond]
        exact ih c ht

theorem rLE_trans (a b c : ChainRec) (h₁ : decide (a.avg_price ≤ b.avg_price) = true)
    (h₂ : decide (b.avg_price ≤ c.avg_price) = true) :
    decide (a.avg_price ≤ c.avg_price) = true := by
  simp only [decide_eq_true_eq] at *
  exact le_trans h₁ h₂

theorem rLE_total (a b : ChainRec) :
    (decide (a.avg_price ≤ b.avg_price) || decide (b.avg_price ≤ a.avg_price)) = true := by
  simp only [Bool.or_eq_true, decide_eq_true_eq]
  exact le_total a.avg_price b.avg_price

/-! ### Claim theorems -/

/-- C2: the fills of all records output by `calculate_metrics` sum to the number
of input claims, and (claim ids being unique) the reverted fields sum to the
number of distinct reverted claim ids that match the id of some input claim. -/
theorem calculate_metrics_counts (claims : List Claim) (reverts : List Revert)
    (h : (claims.map (fun c => c.id)).Nodup) :
    ((calculate_metrics claims reverts).map (fun r => r.fills)).sum = claims.length ∧
    ((calculate_metrics claims reverts).map (fun r => r.reverted)).sum =
      ((revertedClaims reverts).dedup.filter
        (fun i => decide (i ∈ claims.map (fun c => c.id)))).length := by
  constructor
  · have hmap : (calculate_metrics claims reverts).map (fun r => r.fills) =
        (claims.foldl (metricsStep (revertedClaims reverts)) []).map (fun e => e.2.fills) := by
      unfold calculate_metrics
      rw [List.map_map]
      rfl
    rw [hmap, sumFills_foldl]
    simp
  · have hmap : (calculate_metrics claims reverts).map (fun r => r.reverted) =
        (claims.foldl (metricsStep (revertedClaims reverts)) []).map
          (fun e => e.2.reverted) := by
      unfold calculate_metrics
      rw [List.map_map]
      rfl
    rw [hmap, sumReverted_foldl]
    simp only [List.map_nil, List.sum_nil, Nat.zero_add]
    refine nodup_length_eq_of_mem_iff (List.Nodup.filter _ h)
      (List.Nodup.filter _ (List.nodup_dedup _)) ?_
    intro a
    simp [List.mem_filter, List.mem_dedup, and_comm]

/-- Witness for C2 at a concrete input: one claim, two reverts of the same id. -/
theorem calculate_metrics_counts_witness :
    ((calculate_metrics [⟨"c1", "p1", "d1", 10, 1, "t"⟩]
        [⟨"r1", "c1", "t"⟩, ⟨"r2", "c1", "t"⟩]).map (fun r => r.fills)).sum =
      ([⟨"c1", "p1", "d1", 10, 1, "t"⟩] : List Claim).length ∧
    ((calculate_metrics [⟨"c1", "p1", "d1", 10, 1, "t"⟩]
        [⟨"r1", "c1", "t"⟩, ⟨"r2", "c1", "t"⟩]).map (fun r => r.reverted)).sum =
      ((revertedClaims [⟨"r1", "c1", "t"⟩, ⟨"r2", "c1", "t"⟩]).dedup.filter
        (fun i => decide (i ∈ ([⟨"c1", "p1", "d1", 10, 1, "t"⟩] : List Claim).map
          (fun c => c.id)))).length :=
  calculate_metrics_counts [⟨"c1", "p1", "d1", 10, 1, "t"⟩]
    [⟨"r1", "c1", "t"⟩, ⟨"r2", "c1", "t"⟩] (by decide)

/-- C8: every record emitted by `calculate_metrics` has at least one fill, at
most `fills` reversals, and its `avg_price` comes from the division branch
`total_price / fills` (the divide-by-zero guard's 0 branch is unreachable). -/
theorem calculate_metrics_record_invariants (claims : List Claim) (reverts : List Revert)
    (r : MetricRecord) (hr : r ∈ calculate_metrics claims reverts) :
    1 ≤ r.fills ∧ r.reverted ≤ r.fills ∧ r.avg_price = r.total_price / (r.fills : ℚ) := by
  unfold calculate_metrics at hr
  obtain ⟨e, he, rfl⟩ := List.mem_map.mp hr
  have hinv : ∀ e₁ : (String × String) × MAcc,
      e₁ ∈ claims.foldl (metricsStep (revertedClaims reverts)) [] →
      1 ≤ e₁.2.fills ∧ e₁.2.reverted ≤ e₁.2.fills := by
    refine foldl_preserves
      (P := fun m => ∀ e₁ : (String × String) × MAcc,
        e₁ ∈ m → 1 ≤ e₁.2.fills ∧ e₁.2.reverted ≤ e₁.2.fills)
      ?_ claims [] (by simp)
    intro s c hs e₁ he₁
    unfold metricsStep at he₁
    rcases mem_updateA he₁ with h₁ | ⟨v, hv, rfl⟩ | rfl
    · exact hs _ h₁
    · obtain ⟨ha, hb⟩ := hs _ hv
      dsimp only at ha hb
      by_cases hrev : c.id ∈ revertedClaims reverts <;>
        simp only [hrev, if_true, if_false] <;> omega
    · by_cases hrev : c.id ∈ revertedClaims reverts <;>
        simp only [hrev, if_true, if_false] <;> omega
  obtain ⟨h1, h2⟩ := hinv e he
  have hne : e.2.fills ≠ 0 := by omega
  refine ⟨h1, h2, ?_⟩
  dsimp only
  rw [if_pos hne]

/-- Witness for C8 at a concrete input: a single claim with no reverts. -/
theorem calculate_metrics_record_invariants_witness :
    1 ≤ (MetricRecord.mk "p1" "d1" 1 0 10 10).fills ∧
    (MetricRecord.mk "p1" "d1" 1 0 10 10).reverted ≤
      (MetricRecord.mk "p1" "d1" 1 0 10 10).fills ∧
    (MetricRecord.mk "p1" "d1" 1 0 10 10).avg_price =
      (MetricRecord.mk "p1" "d1" 1 0 10 10).total_price /
        (((MetricRecord.mk "p1" "d1" 1 0 10 10).fills : Nat) : ℚ) :=
  calculate_metrics_record_invariants [⟨"c1", "p1", "d1", 10, 30, "t"⟩] []
    ⟨"p1", "d1", 1, 0, 10, 10⟩ (by
      have h : calculate_metrics [⟨"c1", "p1", "d1", 10, 30, "t"⟩] [] =
          [⟨"p1", "d1", 1, 0, 10, 10⟩] := by
        simp [calculate_metrics, metricsStep, updateA, revertedClaims]
      rw [h]
      simp)

/-- C5: reverts change only the `reverted` field of `calculate_metrics` output —
with `reverted` zeroed out the records agree, record for record, with the run on
an empty revert list; concretely one claim of price 10 plus a revert of it still
yields total_price 10 and avg_price 10, with reverted 1. -/
theorem calculate_metrics_revert_frame (claims : List Claim) (reverts : List Revert) :
    (calculate_metrics claims reverts).map stripReverted =
      (calculate_metrics claims []).map stripReverted ∧
    calculate_metrics [⟨"c1", "p1", "d1", 10, 30, "t"⟩] [⟨"r1", "c1", "t"⟩] =
      [⟨"p1", "d1", 1, 1, 10, 10⟩] := by
  refine ⟨(calculate_metrics_strip_eq claims reverts).trans
    (calculate_metrics_strip_eq claims []).symm, ?_⟩
  simp [calculate_metrics, metricsStep, updateA, revertedClaims]

theorem metricsStep_congr (r₁ r₂ : List String) (acc : List ((String × String) × MAcc))
    (c : Claim) (h : c.id ∈ r₁ ↔ c.id ∈ r₂) :
    metricsStep r₁ acc c = metricsStep r₂ acc c := by
  unfold metricsStep
  have hf : (fun m : MAcc =>
      ({ fills := m.fills + 1
         reverted := if c.id ∈ r₁ then m.reverted + 1 else m.reverted
         total_price := m.total_price + c.price } : MAcc)) =
      (fun m : MAcc =>
        ({ fills := m.fills + 1
           reverted := if c.id ∈ r₂ then m.reverted + 1 else m.reverted
           total_price := m.total_price + c.price } : MAcc)) := by
    funext m
    rw [if_congr h rfl rfl]
  rw [hf]

theorem mpStep_congr (r₁ r₂ : List String) (acc : List (String × List ℚ))
    (c : Claim) (h : c.id ∈ r₁ ↔ c.id ∈ r₂) :
    mpStep r₁ acc c = mpStep r₂ acc c := by
  unfold mpStep
  exact if_congr h rfl rfl

theorem recStep_congr (r₁ r₂ : List String) (dir : List (String × String))
    (acc : List (String × List (String × List ℚ))) (c : Claim)
    (h : c.id ∈ r₁ ↔ c.id ∈ r₂) :
    recStep r₁ dir acc c = recStep r₂ dir acc c := by
  unfold recStep
  exact if_congr h rfl rfl

/-- C7: the three aggregators depend on the revert list only through the set of
its `claim_id` values (so duplicating or reordering reverts changes nothing),
and a revert whose `claim_id` matches no claim id is inert. -/
theorem aggregators_revert_set_only (claims : List Claim) (dir : List (String × String)) :
    (∀ r₁ r₂ : List Revert, (∀ i, i ∈ revertedClaims r₁ ↔ i ∈ revertedClaims r₂) →
      calculate_metrics claims r₁ = calculate_metrics claims r₂ ∧
      most_prescribed claims r₁ = most_prescribed claims r₂ ∧
      recommendations claims r₁ dir = recommendations claims r₂ dir) ∧
    (∀ (rv : Revert) (reverts : List Revert), rv.claim_id ∉ claims.map (fun c => c.id) →
      calculate_metrics claims (rv :: reverts) = calculate_metrics claims reverts ∧
      most_prescribed claims (rv :: reverts) = most_prescribed claims reverts ∧
      recommendations claims (rv :: reverts) dir = recommendations claims reverts dir) := by
  have main : ∀ r₁ r₂ : List Revert,
      (∀ c : Claim, c ∈ claims →
        (c.id ∈ revertedClaims r₁ ↔ c.id ∈ revertedClaims r₂)) →
      calculate_metrics claims r₁ = calculate_metrics claims r₂ ∧
      most_prescribed claims r₁ = most_prescribed claims r₂ ∧
      recommendations claims r₁ dir = recommendations claims r₂ dir := by
    intro r₁ r₂ h
    refine ⟨?_, ?_, ?_⟩
    · unfold calculate_metrics
      rw [foldl_congr_mem claims []
        (fun s c hc => metricsStep_congr (revertedClaims r₁) (revertedClaims r₂) s c (h c hc))]
    · unfold most_prescribed
      rw [foldl_congr_mem claims []
        (fun s c hc => mpStep_congr (revertedClaims r₁) (revertedClaims r₂) s c (h c hc))]
    · unfold recommendations recAssoc
      rw [foldl_congr_mem claims []
        (fun s c hc => recStep_congr (revertedClaims r₁) (revertedClaims r₂) dir s c (h c hc))]
  constructor
  · intro r₁ r₂ hset
    exact main r₁ r₂ (fun c _ => hset c.id)
  · intro rv reverts hd
    refine main (rv :: reverts) reverts ?_
    intro c hc
    have hne : c.id ≠ rv.claim_id := by
      intro h
      exact hd (List.mem_map.mpr ⟨c, hc, h⟩)
    simp only [revertedClaims, List.map_cons, List.mem_cons]
    constructor
    · rintro (h | h)
      · exact absurd h hne
      · exact h
    · exact fun h => Or.inr h

/-- Witness for C7 at a concrete input: duplicated and dangling reverts. -/
theorem aggregators_revert_set_only_witness :
    calculate_metrics [⟨"c1", "p1", "d1", 10, 30, "t"⟩]
        [⟨"r1", "c1", "t"⟩, ⟨"r2", "c1", "t"⟩] =
      calculate_metrics [⟨"c1", "p1", "d1", 10, 30, "t"⟩] [⟨"r1", "c1", "t"⟩] ∧
    calculate_metrics [⟨"c1", "p1", "d1", 10, 30, "t"⟩]
        (⟨"r9", "zz", "t"⟩ :: [⟨"r1", "c1", "t"⟩]) =
      calculate_metrics [⟨"c1", "p1", "d1", 10, 30, "t"⟩] [⟨"r1", "c1", "t"⟩] :=
  ⟨((aggregators_revert_set_only [⟨"c1", "p1", "d1", 10, 30, "t"⟩] []).1
      [⟨"r1", "c1", "t"⟩, ⟨"r2", "c1", "t"⟩] [⟨"r1", "c1", "t"⟩]
      (by intro i; simp [revertedClaims])).1,
    ((aggregators_revert_set_only [⟨"c1", "p1", "d1", 10, 30, "t"⟩] []).2
      ⟨"r9", "zz", "t"⟩ [⟨"r1", "c1", "t"⟩] (by decide)).1⟩

/-- C3: for every ndc entry output by `most_prescribed`, the
`most_prescribed_quantity` list holds exactly the distinct quantities of that
ndc's non-reverted claims, ordered by strictly greater frequency first and, for
equal frequencies, by first encounter in the claim stream; claims whose id is
in the reversal set contribute nothing. -/
theorem most_prescribed_ranking (claims : List Claim) (reverts : List Revert)
    (e : MPRecord) (he : e ∈ most_prescribed claims reverts) :
    e.most_prescribed_quantity.Nodup ∧
    (∀ q, q ∈ e.most_prescribed_quantity ↔
      q ∈ ndcQuantities (revertedClaims reverts) e.ndc claims) ∧
    e.most_prescribed_quantity.Pairwise (fun a b =>
      countQ b (ndcQuantities (revertedClaims reverts) e.ndc claims) <
          countQ a (ndcQuantities (revertedClaims reverts) e.ndc claims) ∨
        (countQ b (ndcQuantities (revertedClaims reverts) e.ndc claims) =
            countQ a (ndcQuantities (revertedClaims reverts) e.ndc claims) ∧
          firstIdx a (ndcQuantities (revertedClaims reverts) e.ndc claims) <
            firstIdx b (ndcQuantities (revertedClaims reverts) e.ndc claims))) := by
  unfold most_prescribed at he
  obtain ⟨en, hen, rfl⟩ := List.mem_map.mp he
  obtain ⟨ndc, l⟩ := en
  have hl : l = ndcQuantities (revertedClaims reverts) ndc claims :=
    mp_entry_eq_ndcQuantities hen
  dsimp only
  rw [← hl]
  exact ⟨nodup_mostCommon_keys l, fun q => mem_mostCommon_keys l, pairwise_mostCommon l⟩

/-- Witness for C3 at a concrete input: one non-reverted claim of quantity 5. -/
theorem most_prescribed_ranking_witness :
    (MPRecord.mk "d1" [5]).most_prescribed_quantity.Nodup ∧
    (∀ q, q ∈ (MPRecord.mk "d1" [5]).most_prescribed_quantity ↔
      q ∈ ndcQuantities (revertedClaims []) (MPRecord.mk "d1" [5]).ndc
        [⟨"c1", "p1", "d1", 10, 5, "t"⟩]) ∧
    (MPRecord.mk "d1" [5]).most_prescribed_quantity.Pairwise (fun a b =>
      countQ b (ndcQuantities (revertedClaims []) (MPRecord.mk "d1" [5]).ndc
          [⟨"c1", "p1", "d1", 10, 5, "t"⟩]) <
          countQ a (ndcQuantities (revertedClaims []) (MPRecord.mk "d1" [5]).ndc
            [⟨"c1", "p1", "d1", 10, 5, "t"⟩]) ∨
        (countQ b (ndcQuantities (revertedClaims []) (MPRecord.mk "d1" [5]).ndc
            [⟨"c1", "p1", "d1", 10, 5, "t"⟩]) =
            countQ a (ndcQuantities (revertedClaims []) (MPRecord.mk "d1" [5]).ndc
              [⟨"c1", "p1", "d1", 10, 5, "t"⟩]) ∧
          firstIdx a (ndcQuantities (revertedClaims []) (MPRecord.mk "d1" [5]).ndc
              [⟨"c1", "p1", "d1", 10, 5, "t"⟩]) <
            firstIdx b (ndcQuantities (revertedClaims []) (MPRecord.mk "d1" [5]).ndc
              [⟨"c1", "p1", "d1", 10, 5, "t"⟩]))) :=
  most_prescribed_ranking [⟨"c1", "p1", "d1", 10, 5, "t"⟩] [] ⟨"d1", [5]⟩ (by
    have h : most_prescribed [⟨"c1", "p1", "d1", 10, 5, "t"⟩] [] = [⟨"d1", [5]⟩] := by
      norm_num [most_prescribed, mpStep, mostCommon, counterItems, firstOccs, countQ,
        updateA, revertedClaims]
    rw [h]
    simp)

/-- C1: for a reverted claim both `+price` and `-price` are appended to the
resolved (ndc, chain) price list, every emitted chain average is
`sum(list)/count(list)` over that list, and in the concrete netting scenario
the single reverted claim of price 10 yields ChainA with average (10 + -10)/2 = 0. -/
theorem recommendations_netting_avg :
    (∀ (claims : List Claim) (reverts : List Revert) (dir : List (String × String))
        (e : RecRecord), e ∈ recommendations claims reverts dir →
      ∀ ce : ChainRec, ce ∈ e.chain →
        ce.avg_price =
          (priceSamples (revertedClaims reverts) dir e.ndc ce.name claims).sum /
            ((priceSamples (revertedClaims reverts) dir e.ndc ce.name claims).length : ℚ)) ∧
    priceSamples (revertedClaims [⟨"r1", "c1", "t"⟩]) [("p1", "ChainA")] "d1" "ChainA"
        [⟨"c1", "p1", "d1", 10, 30, "t"⟩] = [10, -10] ∧
    recommendations [⟨"c1", "p1", "d1", 10, 30, "t"⟩] [⟨"r1", "c1", "t"⟩]
        [("p1", "ChainA")] = [⟨"d1", [⟨"ChainA", 0⟩]⟩] := by
  refine ⟨?_, ?_, ?_⟩
  · intro claims reverts dir e he ce hce
    unfold recommendations at he
    obtain ⟨en, hen, rfl⟩ := List.mem_map.mp he
    obtain ⟨ndc, inner⟩ := en
    dsimp only at hce ⊢
    have hce2 : ce ∈ chainAvgs inner :=
      List.mem_mergeSort.mp ((List.take_sublist 2 _).subset hce)
    unfold chainAvgs at hce2
    obtain ⟨pe, hpe, rfl⟩ := List.mem_map.mp hce2
    obtain ⟨chain, pl⟩ := pe
    have hpl : pl = priceSamples (revertedClaims reverts) dir ndc chain claims :=
      rec_entry_eq_priceSamples hen hpe
    dsimp only
    rw [hpl]
  · simp [priceSamples, chainOf, lookupA, revertedClaims]
  · norm_num [recommendations, recAssoc, recStep, chainOf, lookupA, updateA,
      revertedClaims, chainAvgs]

/-- Witness for C1: the general average characterization applied at the netting
scenario input. -/
theorem recommendations_netting_avg_witness :
    (ChainRec.mk "ChainA" 0).avg_price =
      (priceSamples (revertedClaims [⟨"r1", "c1", "t"⟩]) [("p1", "ChainA")]
          (RecRecord.mk "d1" [⟨"ChainA", 0⟩]).ndc (ChainRec.mk "ChainA" 0).name
          [⟨"c1", "p1", "d1", 10, 30, "t"⟩]).sum /
        ((priceSamples (revertedClaims [⟨"r1", "c1", "t"⟩]) [("p1", "ChainA")]
          (RecRecord.mk "d1" [⟨"ChainA", 0⟩]).ndc (ChainRec.mk "ChainA" 0).name
          [⟨"c1", "p1", "d1", 10, 30, "t"⟩]).length : ℚ) :=
  recommendations_netting_avg.1 [⟨"c1", "p1", "d1", 10, 30, "t"⟩] [⟨"r1", "c1", "t"⟩]
    [("p1", "ChainA")] ⟨"d1", [⟨"ChainA", 0⟩]⟩
    (by
      rw [recommendations_netting_avg.2.2]
      simp)
    ⟨"ChainA", 0⟩ (by simp)

/-- C6: every ndc entry of `recommendations` lists at most two chains, in
ascending order of `avg_price`. -/
theorem recommendations_top2_sorted (claims : List Claim) (reverts : List Revert)
    (dir : List (String × String)) (e : RecRecord)
    (he : e ∈ recommendations claims reverts dir) :
    e.chain.length ≤ 2 ∧ e.chain.Pairwise (fun a b => a.avg_price ≤ b.avg_price) := by
  unfold recommendations at he
  obtain ⟨en, hen, rfl⟩ := List.mem_map.mp he
  dsimp only
  constructor
  · exact List.length_take_le 2 _
  · have hs := List.sorted_mergeSort rLE_trans rLE_total (chainAvgs en.2)
    have hsub := List.Pairwise.sublist (List.take_sublist 2 _) hs
    exact hsub.imp (fun h => of_decide_eq_true h)

/-- Witness for C6 at a concrete input: one claim, one chain. -/
theorem recommendations_top2_sorted_witness :
    (RecRecord.mk "d1" [⟨"ChainA", 10⟩]).chain.length ≤ 2 ∧
    (RecRecord.mk "d1" [⟨"ChainA", 10⟩]).chain.Pairwise
      (fun a b => a.avg_price ≤ b.avg_price) :=
  recommendations_top2_sorted [⟨"c1", "p1", "d1", 10, 30, "t"⟩] [] [("p1", "ChainA")]
    ⟨"d1", [⟨"ChainA", 10⟩]⟩ (by
      have h : recommendations [⟨"c1", "p1", "d1", 10, 30, "t"⟩] [] [("p1", "ChainA")] =
          [⟨"d1", [⟨"ChainA", 10⟩]⟩] := by
        norm_num [recommendations, recAssoc, recStep, chainOf, lookupA, updateA,
          revertedClaims, chainAvgs]
      rw [h]
      simp)

/-- C9: a claim whose npi has no directory entry is aggregated under the chain
"Unknown": its price lands in the (ndc, "Unknown") price list of the built
nested dictionary (and of its characterization `priceSamples`), and its ndc is
never excluded from the output. -/
theorem recommendations_unknown_chain (claims : List Claim) (reverts : List Revert)
    (dir : List (String × String)) (c : Claim) (hc : c ∈ claims)
    (hdir : lookupA c.npi dir = none) :
    c.price ∈ lookupList "Unknown" (lookupList c.ndc (recAssoc claims reverts dir)) ∧
    c.price ∈ priceSamples (revertedClaims reverts) dir c.ndc "Unknown" claims ∧
    ∃ e : RecRecord, e ∈ recommendations claims reverts dir ∧ e.ndc = c.ndc := by
  have hchain : chainOf dir c.npi = "Unknown" := by
    simp [chainOf, hdir]
  have hps : c.price ∈ priceSamples (revertedClaims reverts) dir c.ndc "Unknown" claims := by
    have h := price_mem_priceSamples (revertedClaims reverts) dir claims c hc
    rwa [hchain] at h
  refine ⟨?_, hps, ?_⟩
  · have hc2 := lookup2_foldl_recStep (revertedClaims reverts) dir c.ndc "Unknown" claims []
    unfold recAssoc
    rw [hc2]
    simpa [lookupList, lookupA] using hps
  · have hk := ndc_mem_keys_recAssoc claims reverts dir c hc
    obtain ⟨en, hen, hfst⟩ := List.mem_map.mp hk
    refine ⟨⟨en.1, ((chainAvgs en.2).mergeSort
      (fun a b => decide (a.avg_price ≤ b.avg_price))).take 2⟩, ?_, hfst⟩
    unfold recommendations
    exact List.mem_map.mpr ⟨en, hen, rfl⟩

/-- Witness for C9 at a concrete input: npi "p9" absent from the directory. -/
theorem recommendations_unknown_chain_witness :
    (10 : ℚ) ∈ lookupList "Unknown" (lookupList "d1"
      (recAssoc [⟨"c1", "p9", "d1", 10, 30, "t"⟩] [] [("p1", "ChainA")])) ∧
    (10 : ℚ) ∈ priceSamples (revertedClaims []) [("p1", "ChainA")] "d1" "Unknown"
      [⟨"c1", "p9", "d1", 10, 30, "t"⟩] ∧
    (∃ e : RecRecord,
      e ∈ recommendations [⟨"c1", "p9", "d1", 10, 30, "t"⟩] [] [("p1", "ChainA")] ∧
      e.ndc = "d1") :=
  recommendations_unknown_chain [⟨"c1", "p9", "d1", 10, 30, "t"⟩] [] [("p1", "ChainA")]
    ⟨"c1", "p9", "d1", 10, 30, "t"⟩ (by simp) (by simp [lookupA])

/-- C10: every (ndc, chain) price list in the built nested dictionary is
non-empty, so the average `sum(prices)/len(prices)` never divides by zero. -/
theorem recommendations_price_lists_nonempty (claims : List Claim) (reverts : List Revert)
    (dir : List (String × String)) (p : String × List (String × List ℚ))
    (hp : p ∈ recAssoc claims reverts dir) (q : String × List ℚ) (hq : q ∈ p.2) :
    q.2 ≠ [] ∧ ((q.2.length : ℚ) ≠ 0) := by
  have h1 : q.2 ≠ [] := recAssoc_inner_nonempty claims reverts dir p hp q hq
  have h2 : q.2.length ≠ 0 := by
    intro h
    exact h1 (List.length_eq_zero.mp h)
  exact ⟨h1, by exact_mod_cast h2⟩

/-- Witness for C10 at a concrete input. -/
theorem recommendations_price_lists_nonempty_witness :
    (("ChainA", [(10 : ℚ)]) : String × List ℚ).2 ≠ [] ∧
    (((("ChainA", [(10 : ℚ)]) : String × List ℚ).2.length : ℚ) ≠ 0) :=
  recommendations_price_lists_nonempty [⟨"c1", "p1", "d1", 10, 30, "t"⟩] []
    [("p1", "ChainA")] ("d1", [("ChainA", [10])]) (by
      have h : recAssoc [⟨"c1", "p1", "d1", 10, 30, "t"⟩] [] [("p1", "ChainA")] =
          [("d1", [("ChainA", [10])])] := by
        norm_num [recAssoc, recStep, chainOf, lookupA, updateA, revertedClaims]
      rw [h]
      simp)
    ("ChainA", [10]) (by simp)

/-- Counterexample to C4 as stated: a claim lacking `quantity` (a required field
per the claim) makes none of the three aggregators fail — all three produce a
result, with `most_prescribed` silently defaulting the quantity to 0.0 — and a
claim lacking `price` does not make `most_prescribed` fail either. -/
theorem aggregators_missing_field_counterexample :
    (RawClaim.mk (some "c1") (some "p1") (some "d1") (some 10) none).quantity = none ∧
    calculate_metricsR [⟨some "c1", some "p1", some "d1", some 10, none⟩] [] =
      some [⟨"p1", "d1", 1, 0, 10, 10⟩] ∧
    most_prescribedR [⟨some "c1", some "p1", some "d1", some 10, none⟩] [] =
      some [⟨"d1", [0]⟩] ∧
    recommendationsR [⟨some "c1", some "p1", some "d1", some 10, none⟩] [] [] =
      some [⟨"d1", [⟨"Unknown", 10⟩]⟩] ∧
    (RawClaim.mk (some "c2") (some "p1") (some "d1") none (some 5)).price = none ∧
    most_prescribedR [⟨some "c2", some "p1", some "d1", none, some 5⟩] [] =
      some [⟨"d1", [5]⟩] := by
  refine ⟨rfl, ?_, ?_, ?_, rfl, ?_⟩
  · norm_num [calculate_metricsR, metricsStepR, updateA, revertedClaims]
  · norm_num [most_prescribedR, mpStepR, mostCommon, counterItems, firstOccs, countQ,
      updateA, revertedClaims]
  · norm_num [recommendationsR, recStepR, chainOf, lookupA, updateA, revertedClaims,
      chainAvgs]
  · norm_num [most_prescribedR, mpStepR, mostCommon, counterItems, firstOccs, countQ,
      updateA, revertedClaims]

theorem aggregators_missing_field_fail (claims : List RawClaim) (reverts : List Revert)
    (dir : List (String × String)) (c : RawClaim) (hc : c ∈ claims) :
    (c.npi = none ∨ c.ndc = none ∨ c.price = none →
      calculate_metricsR claims reverts = none) ∧
    (c.npi = none ∨ c.ndc = none → most_prescribedR claims reverts = none) ∧
    (c.npi = none ∨ c.ndc = none ∨ c.price = none →
      recommendationsR claims reverts dir = none) := by
  refine ⟨?_, ?_, ?_⟩
  · intro h
    have hstep : ∀ s, metricsStepR (revertedClaims reverts) s c = none := by
      intro s
      rcases h with h | h | h
      · simp [metricsStepR, h]
      · cases hnpi : c.npi <;> simp [metricsStepR, h, hnpi]
      · cases hnpi : c.npi <;> cases hndc : c.ndc <;> simp [metricsStepR, h, hnpi, hndc]
    unfold calculate_metricsR
    rw [foldlM_none claims [] hc hstep]
    rfl
  · intro h
    have hstep : ∀ s, mpStepR (revertedClaims reverts) s c = none := by
      intro s
      rcases h with h | h
      · simp [mpStepR, h]
      · cases hnpi : c.npi <;> simp [mpStepR, h, hnpi]
    unfold most_prescribedR
    rw [foldlM_none claims [] hc hstep]
    rfl
  · intro h
    have hstep : ∀ s, recStepR (revertedClaims reverts) dir s c = none := by
      intro s
      rcases h with h | h | h
      · simp [recStepR, h]
      · cases hnpi : c.npi <;> simp [recStepR, h, hnpi]
      · cases hnpi : c.npi <;> cases hndc : c.ndc <;> simp [recStepR, h, hnpi, hndc]
    unfold recommendationsR
    rw [foldlM_none claims [] hc hstep]
    rfl

/-- C4 (amended): a claim lacking `npi` or `ndc` makes all three aggregators fail
with a missing-key fault; a claim lacking `price` makes `calculate_metrics` and
`recommendations` fail, while `most_prescribed` succeeds whenever every claim has
id, npi and ndc (it never reads the price); and a missing `quantity` causes no
failure anywhere: all three aggregators succeed whenever every claim has id,
npi, ndc and price, the quantity being defaulted to 0.0 by `most_prescribed`. -/
theorem aggregators_missing_field_amended :
    (∀ (claims : List RawClaim) (reverts : List Revert) (dir : List (String × String))
        (c : RawClaim), c ∈ claims → (c.npi = none ∨ c.ndc = none) →
      calculate_metricsR claims reverts = none ∧
      most_prescribedR claims reverts = none ∧
      recommendationsR claims reverts dir = none) ∧
    (∀ (claims : List RawClaim) (reverts : List Revert) (dir : List (String × String))
        (c : RawClaim), c ∈ claims → c.price = none →
      calculate_metricsR claims reverts = none ∧
      recommendationsR claims reverts dir = none) ∧
    (∀ (claims : List RawClaim) (reverts : List Revert),
      (∀ c : RawClaim, c ∈ claims → c.id ≠ none ∧ c.npi ≠ none ∧ c.ndc ≠ none) →
      (most_prescribedR claims reverts).isSome = true) ∧
    (∀ (claims : List RawClaim) (reverts : List Revert) (dir : List (String × String)),
      (∀ c : RawClaim, c ∈ claims →
        c.id ≠ none ∧ c.npi ≠ none ∧ c.ndc ≠ none ∧ c.price ≠ none) →
      (calculate_metricsR claims reverts).isSome = true ∧
      (most_prescribedR claims reverts).isSome = true ∧
      (recommendationsR claims reverts dir).isSome = true) := by
  have hfail : ∀ (claims : List RawClaim) (reverts : List Revert)
      (dir : List (String × String)) (c : RawClaim), c ∈ claims →
      (c.npi = none ∨ c.ndc = none ∨ c.price = none →
        calculate_metricsR claims reverts = none) ∧
      (c.npi = none ∨ c.ndc = none → most_prescribedR claims reverts = none) ∧
      (c.npi = none ∨ c.ndc = none ∨ c.price = none →
        recommendationsR claims reverts dir = none) := by
    intro claims reverts dir c hc
    exact aggregators_missing_field_fail claims reverts dir c hc
  refine ⟨?_, ?_, ?_, ?_⟩
  · intro claims reverts dir c hc h
    obtain ⟨h1, h2, h3⟩ := hfail claims reverts dir c hc
    have h4 : c.npi = none ∨ c.ndc = none ∨ c.price = none := by tauto
    exact ⟨h1 h4, h2 h, h3 h4⟩
  · intro claims reverts dir c hc h
    obtain ⟨h1, _, h3⟩ := hfail claims reverts dir c hc
    exact ⟨h1 (Or.inr (Or.inr h)), h3 (Or.inr (Or.inr h))⟩
  · intro claims reverts h
    exact most_prescribedR_isSome claims reverts h
  · intro claims reverts dir h
    refine ⟨calculate_metricsR_isSome claims reverts h, ?_, ?_⟩
    · exact most_prescribedR_isSome claims reverts
        (fun c hc => ⟨(h c hc).1, (h c hc).2.1, (h c hc).2.2.1⟩)
    · exact recommendationsR_isSome claims reverts dir h

/-- Witness for the amended C4: a claim lacking npi aborts all three aggregators;
one lacking price aborts metrics and recommendations but not most_prescribed; one
lacking quantity aborts none of the three. -/
theorem aggregators_missing_field_amended_witness :
    (calculate_metricsR [⟨some "c1", none, some "d1", some 10, some 1⟩] [] = none ∧
      most_prescribedR [⟨some "c1", none, some "d1", some 10, some 1⟩] [] = none ∧
      recommendationsR [⟨some "c1", none, some "d1", some 10, some 1⟩] [] [] = none) ∧
    (calculate_metricsR [⟨some "c1", some "p1", some "d1", none, some 1⟩] [] = none ∧
      recommendationsR [⟨some "c1", some "p1", some "d1", none, some 1⟩] [] [] = none) ∧
    (most_prescribedR [⟨some "c1", some "p1", some "d1", none, some 1⟩] []).isSome = true ∧
    ((calculate_metricsR [⟨some "c1", some "p1", some "d1", some 10, none⟩] []).isSome
        = true ∧
      (most_prescribedR [⟨some "c1", some "p1", some "d1", some 10, none⟩] []).isSome
        = true ∧
      (recommendationsR [⟨some "c1", some "p1", some "d1", some 10, none⟩] [] []).isSome
        = true) :=
  ⟨aggregators_missing_field_amended.1 [⟨some "c1", none, some "d1", some 10, some 1⟩] [] []
      ⟨some "c1", none, some "d1", some 10, some 1⟩ (by simp) (Or.inl rfl),
    aggregators_missing_field_amended.2.1 [⟨some "c1", some "p1", some "d1", none, some 1⟩]
      [] [] ⟨some "c1", some "p1", some "d1", none, some 1⟩ (by simp) rfl,
    aggregators_missing_field_amended.2.2.1 [⟨some "c1", some "p1", some "d1", none, some 1⟩]
      [] (by decide),
    aggregators_missing_field_amended.2.2.2 [⟨some "c1", some "p1", some "d1", some 10, none⟩]
      [] [] (by decide)⟩

end PDA
